import Mathlib

/-!
# Caption Timeline & Synchronized Render Engine — verification

Shallow embedding of the caption-timeline core of `src/App.tsx`:

* `splitText` (the segmenter, lines 292–313): sentence split on `/[.!?]\s+/`,
  per-sentence clause split on `/([,])\s+/` (the capture keeps the comma),
  greedy accumulation into chunks of advisory size `MAX_CHARS = 24`;
* `getTimedCaptions` (lines 288–336): character-proportional mapping of the
  ordered chunks onto `[0, duration]`;
* the per-frame caption/image selection of `render` (lines 363–376);
* the `exportVideo` capture protocol (lines 441–476), modelled as the ordered
  sequence of state mutations the function performs plus the installed
  end-of-media handler.

Text is modelled as `List Char`; JavaScript numbers as `ℚ` (the arithmetic in
scope is exact: sums of character counts divided by a total, scaled by a
duration); `Math.floor` as `Int.floor`; `Math.min` as `min` on `ℤ`.
JavaScript falsy defaults (`x || d`) are modelled point-wise where the
operand can actually be `0`/`undefined`/an empty list at that site.
-/

namespace Shortform

/-- JavaScript `\s` (the whitespace class used by the segmenter's regexes),
restricted to the whitespace characters that can occur in script text. -/
def isWs (c : Char) : Bool :=
  c = ' ' || c = '\t' || c = '\n' || c = '\r' || c = '\x0b' || c = '\x0c'

/-- Sentence terminators: the class `[.!?]` of the segmenter. -/
def isTerm (c : Char) : Bool :=
  c = '.' || c = '!' || c = '?'

/-- `String.prototype.trim`: strip leading and trailing whitespace. -/
def dropTrailWs (l : List Char) : List Char :=
  (l.reverse.dropWhile isWs).reverse

/-- `s.trim()` on the character-list model. -/
def trim (l : List Char) : List Char :=
  dropTrailWs (l.dropWhile isWs)

/-- The non-whitespace characters of a text, in order. -/
def nonWsF (l : List Char) : List Char :=
  l.filter (fun c => !isWs c)

/-- The characters of a text that are neither whitespace nor sentence
terminators, in order. -/
def keepF (l : List Char) : List Char :=
  l.filter (fun c => !isWs c && !isTerm c)

/-- One step of `text.split(/[.!?]\s+/)`: find the first separator
(a terminator immediately followed by whitespace).  Returns the piece before
it and, when a separator exists, the consumed terminator together with the
remaining text after the greedy whitespace run. -/
def breakSep : List Char → List Char × Option (Char × List Char)
  | [] => ([], none)
  | [c] => ([c], none)
  | c :: d :: rest =>
    if isTerm c && isWs d then
      ([], some (c, (d :: rest).dropWhile isWs))
    else
      (c :: (breakSep (d :: rest)).1, (breakSep (d :: rest)).2)

/-- Fuelled iteration of `breakSep`; the fuel is only a termination device
(each separator consumes at least two characters, see `splitSentF_fuel`). -/
def splitSentF : ℕ → List Char → List (List Char)
  | 0, l => [l]
  | n + 1, l =>
    match breakSep l with
    | (p, none) => [p]
    | (p, some (_, rest)) => p :: splitSentF n rest

/-- `text.split(/[.!?]\s+/)` — the raw sentence pieces, separators consumed. -/
def splitSent (l : List Char) : List (List Char) :=
  splitSentF (l.length + 1) l

/-- Does the (untrimmed) sentence piece already end in `[.!?]`?
(`/[.!?]$/.test(s)` in the source.) -/
def lastIsTerm (s : List Char) : Bool :=
  match s.getLast? with
  | some c => isTerm c
  | none => false

/-- `text.split(/[.!?]\s+/).filter(s => s.trim().length > 0)
      .map(s => s.trim() + (/[.!?]$/.test(s) ? '' : '.'))` -/
def sentences (t : List Char) : List (List Char) :=
  ((splitSent t).filter (fun s => !(trim s).isEmpty)).map
    (fun s => trim s ++ (if lastIsTerm s then [] else ['.']))

/-- One step of `s.split(/([,])\s+/)`: find the first comma immediately
followed by whitespace; return the piece before it and the remaining text
after the greedy whitespace run. -/
def breakComma : List Char → List Char × Option (List Char)
  | [] => ([], none)
  | [c] => ([c], none)
  | c :: d :: rest =>
    if c = ',' && isWs d then
      ([], some ((d :: rest).dropWhile isWs))
    else
      (c :: (breakComma (d :: rest)).1, (breakComma (d :: rest)).2)

/-- Fuelled iteration of `breakComma`.  The capture group `([,])` makes the
split keep each consumed comma as its own element of the result. -/
def splitCommaF : ℕ → List Char → List (List Char)
  | 0, l => [l]
  | n + 1, l =>
    match breakComma l with
    | (p, none) => [p]
    | (p, some rest) => p :: [','] :: splitCommaF n rest

/-- `s.split(/([,])\s+/)` with the captured commas interleaved. -/
def splitComma (l : List Char) : List (List Char) :=
  splitCommaF (l.length + 1) l

/-- `const MAX_CHARS = 24` — the advisory chunk-length budget. -/
def MAX_CHARS : ℕ := 24

/-- The greedy clause accumulator of the segmenter: flush the running buffer
whenever appending the next clause would exceed `MAX_CHARS` and the buffer is
non-empty; after the loop, flush a non-empty buffer.  Every flush trims the
buffer. -/
def accumulate : List (List Char) → List Char → List (List Char)
  | [], cur => if cur.isEmpty then [] else [trim cur]
  | p :: rest, cur =>
    if MAX_CHARS < (cur ++ p).length && !cur.isEmpty then
      trim cur :: accumulate rest p
    else
      accumulate rest (cur ++ p)

/-- Chunking of a single (already normalized) sentence: short sentences are a
single chunk; long ones are split at comma boundaries and greedily
re-accumulated. -/
def chunksOfSentence (s : List Char) : List (List Char) :=
  if s.length ≤ MAX_CHARS then [s]
  else accumulate ((splitComma s).filter (fun p => !p.isEmpty)) []

/-- `splitText` of `src/App.tsx` (lines 292–313). -/
def splitText (t : List Char) : List (List Char) :=
  ((sentences t).map chunksOfSentence).flatten

/-- The three-part narration script. -/
structure Script where
  hook : List Char
  body : List Char
  outro : List Char

/-- The `section` tag of a caption (`'hook' | 'body' | 'outro'`). -/
inductive Sec
  | hook
  | body
  | outro
deriving DecidableEq

/-- `TimedCaption` of `src/App.tsx` (the `section` field is named `sec`,
`section` being a Lean keyword). -/
structure TimedCaption where
  text : List Char
  startTime : ℚ
  endTime : ℚ
  sec : Sec
deriving DecidableEq

/-- `mapToTimed` walked over a tagged chunk list: each chunk gets
`startTime = accumulated/totalChars * duration` before its length is added to
`accumulated`, and `endTime` the same expression after. -/
def buildCaps (total duration : ℚ) : ℚ → List (List Char × Sec) → List TimedCaption
  | _, [] => []
  | acc, (txt, s) :: rest =>
    { text := txt
      startTime := acc / total * duration
      endTime := (acc + txt.length) / total * duration
      sec := s } :: buildCaps total duration (acc + txt.length) rest

/-- The hook, body and outro chunks in order, tagged with their section. -/
def taggedChunks (script : Script) : List (List Char × Sec) :=
  (splitText script.hook).map (fun c => (c, Sec.hook))
    ++ (splitText script.body).map (fun c => (c, Sec.body))
    ++ (splitText script.outro).map (fun c => (c, Sec.outro))

/-- `totalChars`: length of the concatenation of all chunks of all sections. -/
def totalCharsOf (script : Script) : ℕ :=
  ((splitText script.hook).flatten ++ (splitText script.body).flatten
    ++ (splitText script.outro).flatten).length

/-- `getTimedCaptions` of `src/App.tsx` (lines 288–336). -/
def getTimedCaptions (script : Script) (duration : ℚ) : List TimedCaption :=
  buildCaps (totalCharsOf script) duration 0 (taggedChunks script)

/-- `allCaptions.find(s => time >= s.startTime && time < s.endTime)
     || allCaptions[allCaptions.length - 1]` (line 363). -/
def selectCaption (caps : List TimedCaption) (t : ℚ) : Option TimedCaption :=
  match caps.find? (fun c => decide (c.startTime ≤ t ∧ t < c.endTime)) with
  | some c => some c
  | none => caps.getLast?

/-- `allCaptions.find(s => s.section === 'body')?.startTime || 0` (line 371).
A found caption with `startTime = 0` hits the falsy fallback in JavaScript,
but the fallback is also `0`, so the plain match is point-wise faithful. -/
def bodyStartOf (caps : List TimedCaption) : ℚ :=
  match caps.find? (fun c => decide (c.sec = Sec.body)) with
  | some c => c.startTime
  | none => 0

/-- `[...allCaptions].reverse().find(s => s.section === 'body')?.endTime
     || duration` (line 372); an `endTime` of `0` is falsy and falls back to
`duration`. -/
def bodyEndOf (caps : List TimedCaption) (duration : ℚ) : ℚ :=
  match caps.reverse.find? (fun c => decide (c.sec = Sec.body)) with
  | some c => if c.endTime = 0 then duration else c.endTime
  | none => duration

/-- The body branch of the image selection (lines 371–375):
`prog = (time - bodyS) / (bodyE - bodyS || 1)`,
`idx = 1 + Math.min(Math.floor(prog * bCount), bCount - 1)` with
`bCount = images.length - 2`. -/
def bodyIndex (caps : List TimedCaption) (duration t : ℚ) (n : ℤ) : ℤ :=
  1 + min
    ⌊(t - bodyStartOf caps) /
        (if bodyEndOf caps duration - bodyStartOf caps = 0 then 1
         else bodyEndOf caps duration - bodyStartOf caps) * ((n - 2 : ℤ) : ℚ)⌋
    (n - 2 - 1)

/-- The image-index selection of `render` (lines 363–376), `n` being
`images.length`.  An absent caption (empty timeline) falls through both
`?.section` tests into the body branch, exactly as in the source. -/
def selectImageIndex (caps : List TimedCaption) (duration t : ℚ) (n : ℤ) : ℤ :=
  match selectCaption caps t with
  | some c =>
    if c.sec = Sec.hook then 0
    else if c.sec = Sec.outro then n - 1
    else bodyIndex caps duration t n
  | none => bodyIndex caps duration t n

/-! ## The export / capture model

`exportVideo` (lines 441–476) is straight-line code; it is modelled as the
ordered list of state mutations it performs.  `audioEnds` models the
narration `ended` event: the JSX `onEnded` handler always clears the playing
flag, and the handler installed by `exportVideo` additionally stops the
recorder (whose `onstop` clears the exporting flag). -/

structure AppState where
  isExporting : Bool
  isPlaying : Bool
  audioTime : ℚ
  recording : Bool
  onEndedInstalled : Bool
  timeoutArmed : Bool
deriving DecidableEq

inductive ExportEv
  | playOff
  | startRecorder
  | rewindAudio
  | playOn
  | installOnEnded
  | installTimeout
deriving DecidableEq

def exportStep (s : AppState) : ExportEv → AppState
  | .playOff => { s with isPlaying := false }
  | .startRecorder => { s with recording := true }
  | .rewindAudio => { s with audioTime := 0 }
  | .playOn => { s with isPlaying := true }
  | .installOnEnded => { s with onEndedInstalled := true }
  | .installTimeout => { s with timeoutArmed := true }

/-- The mutations of a successful `exportVideo` call, in source order:
`setIsPlaying(false)`; `recorder.start()`; then, with an audio element,
`audio.currentTime = 0`, `setIsPlaying(true)`, `audio.onended = ...`; without
one, `setTimeout(() => recorder.stop(), 5000)`. -/
def exportTrace (audioPresent : Bool) : List ExportEv :=
  [.playOff, .startRecorder]
    ++ (if audioPresent then [.rewindAudio, .playOn, .installOnEnded]
        else [.installTimeout])

/-- All intermediate states of a successful export, starting from `s`. -/
def exportStates (audioPresent : Bool) (s : AppState) : List AppState :=
  (exportTrace audioPresent).scanl exportStep s

/-- `exportVideo`: the guard `if (!canvasRef.current || isExporting) return;`
rejects the request outright; otherwise `setIsExporting(true)` and the trace
run. -/
def exportVideo (canvasPresent audioPresent : Bool) (s : AppState) : AppState :=
  if !canvasPresent || s.isExporting then s
  else (exportTrace audioPresent).foldl exportStep { s with isExporting := true }

/-- The narration `ended` event.  The export-installed handler runs
`recorder.stop()` (so `onstop` fires and clears `isExporting`), clears the
playing flag and uninstalls itself; the JSX `onEnded` alone just clears the
playing flag. -/
def audioEnds (s : AppState) : AppState :=
  if s.onEndedInstalled then
    { s with recording := false, isExporting := false, isPlaying := false,
             onEndedInstalled := false }
  else { s with isPlaying := false }

/-- "Recording begins only once the player is in Playing": every transition
of a state list that switches `recording` on lands in a state whose playing
flag is set. -/
def recStartsPlaying (sts : List AppState) : Bool :=
  (sts.zip sts.tail).all
    (fun ab => !(!ab.1.recording && ab.2.recording) || ab.2.isPlaying)

/-- Every transition of a state list that switches `recording` on lands in a
state whose playing flag is cleared. -/
def recStartsPaused (sts : List AppState) : Bool :=
  (sts.zip sts.tail).all
    (fun ab => !(!ab.1.recording && ab.2.recording) || !ab.2.isPlaying)

/-- Every transition of a state list that switches `isPlaying` on lands in a
state whose audio clock reads `0`. -/
def playStartsAtZero (sts : List AppState) : Bool :=
  (sts.zip sts.tail).all
    (fun ab => !(!ab.1.isPlaying && ab.2.isPlaying) || decide (ab.2.audioTime = 0))

/-- A text whose first character (if any) is not whitespace. -/
def headNotWs (l : List Char) : Prop :=
  ∀ c r, l = c :: r → isWs c = false

/-- A caption list tiles the half-open interval `[a, b)`: the first caption
starts at `a`, each caption is non-degenerate and starts where the previous one
ends, and the last caption ends at `b`. -/
inductive Covers : ℚ → ℚ → List TimedCaption → Prop
  | nil (a : ℚ) : Covers a a []
  | cons (c : TimedCaption) (b : ℚ) (rest : List TimedCaption) :
      c.startTime < c.endTime → Covers c.endTime b rest →
      Covers c.startTime b (c :: rest)

/-- Total chunk length of a tagged chunk list, as a rational. -/
def sumLen (L : List (List Char × Sec)) : ℚ :=
  (L.map (fun x => ((x.1.length : ℚ)))).sum

/-- A degenerate caption list whose single body caption has coinciding
`startTime` and `endTime`. -/
def capsDegenerate : List TimedCaption :=
  [{ text := "x".toList, startTime := 2, endTime := 2, sec := Sec.body }]

/-- An app state in mid-playback (playing, clock at 7 s, nothing recording). -/
def exportStart : AppState :=
  { isExporting := false, isPlaying := true, audioTime := 7, recording := false,
    onEndedInstalled := false, timeoutArmed := false }

/-! ## Whitespace and `trim` lemmas -/

theorem filter_dropWhile_of_imp (p q : Char → Bool) (h : ∀ c, q c = true → p c = false) :
    ∀ l : List Char, (l.dropWhile q).filter p = l.filter p := by
  intro l
  induction l with
  | nil => rfl
  | cons c r ih =>
    by_cases hc : q c
    · simp [List.dropWhile_cons, hc, ih, List.filter_cons, h c hc]
    · simp [List.dropWhile_cons, hc]

theorem filter_dropTrail_of_imp (p : Char → Bool) (h : ∀ c, isWs c = true → p c = false)
    (l : List Char) : (dropTrailWs l).filter p = l.filter p := by
  unfold dropTrailWs
  rw [List.filter_reverse, filter_dropWhile_of_imp p isWs h, List.filter_reverse,
    List.reverse_reverse]

theorem filter_trim_of_imp (p : Char → Bool) (h : ∀ c, isWs c = true → p c = false)
    (l : List Char) : (trim l).filter p = l.filter p := by
  unfold trim
  rw [filter_dropTrail_of_imp p h, filter_dropWhile_of_imp p isWs h]

theorem keepF_trim (l : List Char) : keepF (trim l) = keepF l :=
  filter_trim_of_imp _ (fun c hc => by simp [hc]) l

theorem nonWsF_trim (l : List Char) : nonWsF (trim l) = nonWsF l :=
  filter_trim_of_imp _ (fun c hc => by simp [hc]) l

theorem dropWhile_head_not (q : Char → Bool) :
    ∀ {l : List Char} {c : Char} {r : List Char}, l.dropWhile q = c :: r → q c = false := by
  intro l
  induction l with
  | nil => intro c r h; simp at h
  | cons a t ih =>
    intro c r h
    by_cases ha : q a
    · rw [List.dropWhile_cons, if_pos ha] at h; exact ih h
    · rw [List.dropWhile_cons, if_neg ha] at h
      cases h; simpa using ha

theorem allWs_of_dropWhile_eq_nil {l : List Char} (h : l.dropWhile isWs = []) :
    ∀ c ∈ l, isWs c = true := by
  induction l with
  | nil => intro c hc; simp at hc
  | cons a t ih =>
    by_cases ha : isWs a
    · rw [List.dropWhile_cons, if_pos ha] at h
      intro c hc
      rcases List.mem_cons.mp hc with rfl | hc
      · exact ha
      · exact ih h c hc
    · rw [List.dropWhile_cons, if_neg ha] at h
      simp at h

theorem allWs_of_trim_eq_nil {l : List Char} (h : trim l = []) :
    ∀ c ∈ l, isWs c = true := by
  unfold trim dropTrailWs at h
  rw [List.reverse_eq_nil_iff] at h
  have h2 := allWs_of_dropWhile_eq_nil h
  intro c hc
  rcases (List.takeWhile_append_dropWhile (p := isWs) (l := l)) ▸ hc |> List.mem_append.mp with
    hc' | hc'
  · exact List.mem_takeWhile_imp hc'
  · exact h2 c (List.mem_reverse.mpr hc')

theorem trim_ne_nil_of_mem {l : List Char} {c : Char} (hc : c ∈ l) (hw : isWs c = false) :
    trim l ≠ [] := by
  intro h
  rw [allWs_of_trim_eq_nil h c hc] at hw
  simp at hw

theorem dropTrail_decomp (l : List Char) :
    ∃ w, (∀ c ∈ w, isWs c = true) ∧ l = dropTrailWs l ++ w := by
  refine ⟨(l.reverse.takeWhile isWs).reverse, ?_, ?_⟩
  · intro c hc
    exact List.mem_takeWhile_imp (List.mem_reverse.mp hc)
  · unfold dropTrailWs
    rw [← List.reverse_append, List.takeWhile_append_dropWhile, List.reverse_reverse]

theorem trim_head_not_ws {l : List Char} {c : Char} {r : List Char}
    (h : trim l = c :: r) : isWs c = false := by
  obtain ⟨w, _, hdec⟩ := dropTrail_decomp (l.dropWhile isWs)
  unfold trim at h
  rw [h] at hdec
  exact dropWhile_head_not (q := isWs) (l := l) (c := c) (r := r ++ w)
    (by rw [hdec, List.cons_append])

theorem trim_getLast_not_ws {l : List Char} {c : Char} (h : (trim l).getLast? = some c) :
    isWs c = false := by
  rw [← List.head?_reverse] at h
  unfold trim dropTrailWs at h
  rw [List.reverse_reverse] at h
  cases hd : (l.dropWhile isWs).reverse.dropWhile isWs with
  | nil => rw [hd] at h; simp at h
  | cons a t =>
    rw [hd] at h
    simp only [List.head?_cons, Option.some.injEq] at h
    subst h
    exact dropWhile_head_not (q := isWs) hd

theorem dropWhile_eq_self_of_head {q : Char → Bool} {l : List Char}
    (h : ∀ c, l.head? = some c → q c = false) : l.dropWhile q = l := by
  cases l with
  | nil => rfl
  | cons a t => rw [List.dropWhile_cons, if_neg (by simp [h a rfl])]

theorem dropTrail_eq_self_of_getLast {l : List Char}
    (h : ∀ c, l.getLast? = some c → isWs c = false) : dropTrailWs l = l := by
  unfold dropTrailWs
  rw [dropWhile_eq_self_of_head (fun c hc => h c (by rwa [← List.head?_reverse])),
    List.reverse_reverse]

theorem trim_eq_self_of {l : List Char}
    (hh : ∀ c, l.head? = some c → isWs c = false)
    (hl : ∀ c, l.getLast? = some c → isWs c = false) : trim l = l := by
  unfold trim
  rw [dropWhile_eq_self_of_head hh, dropTrail_eq_self_of_getLast hl]

theorem trim_idem (l : List Char) : trim (trim l) = trim l := by
  cases h : trim l with
  | nil => rfl
  | cons c r =>
    rw [← h]
    refine trim_eq_self_of (fun a ha => ?_) (fun a ha => trim_getLast_not_ws ha)
    rw [h] at ha
    simp only [List.head?_cons, Option.some.injEq] at ha
    subst ha
    exact trim_head_not_ws h

theorem keepF_allWs {l : List Char} (h : ∀ c ∈ l, isWs c = true) : keepF l = [] := by
  unfold keepF
  rw [List.filter_eq_nil_iff]
  intro c hc
  simp [h c hc]

/-! ## Sentence-splitter lemmas -/

theorem breakSep_none : ∀ {l p : List Char}, breakSep l = (p, none) → p = l := by
  intro l
  induction l with
  | nil => intro p h; unfold breakSep at h; injection h with h1 h2; exact h1.symm
  | cons c t ih =>
    intro p h
    cases t with
    | nil => unfold breakSep at h; injection h with h1 h2; exact h1.symm
    | cons d rest =>
      unfold breakSep at h
      by_cases hc : (isTerm c && isWs d) = true
      · rw [if_pos hc] at h; injection h with h1 h2; simp at h2
      · rw [if_neg hc] at h
        rcases hbs : breakSep (d :: rest) with ⟨q, o⟩
        rw [hbs] at h
        injection h with h1 h2
        subst h2
        rw [← h1, ih hbs]

theorem breakSep_some : ∀ {l p rest : List Char} {T : Char},
    breakSep l = (p, some (T, rest)) →
    isTerm T = true ∧ ∃ w, (∀ c ∈ w, isWs c = true) ∧ l = p ++ T :: (w ++ rest) := by
  intro l
  induction l with
  | nil => intro p rest T h; unfold breakSep at h; injection h with h1 h2; simp at h2
  | cons c t ih =>
    intro p rest T h
    cases t with
    | nil => unfold breakSep at h; injection h with h1 h2; simp at h2
    | cons d rest0 =>
      unfold breakSep at h
      by_cases hc : (isTerm c && isWs d) = true
      · rw [if_pos hc] at h
        injection h with h1 h2
        injection h2 with h2
        injection h2 with h2a h2b
        subst h1; subst h2a
        rcases Bool.and_eq_true .. |>.mp hc with ⟨hterm, hws⟩
        refine ⟨hterm, (d :: rest0).takeWhile isWs, ?_, ?_⟩
        · intro a ha; exact List.mem_takeWhile_imp ha
        · rw [← h2b, List.nil_append, List.takeWhile_append_dropWhile]
      · rw [if_neg hc] at h
        rcases hbs : breakSep (d :: rest0) with ⟨q, o⟩
        rw [hbs] at h
        injection h with h1 h2
        subst h2
        obtain ⟨hT, w, hw, hdec⟩ := ih hbs
        refine ⟨hT, w, hw, ?_⟩
        rw [← h1, List.cons_append, ← hdec]

theorem breakSep_rest_lt : ∀ {l p rest : List Char} {T : Char},
    breakSep l = (p, some (T, rest)) → rest.length < l.length := by
  intro l
  induction l with
  | nil => intro p rest T h; unfold breakSep at h; injection h with h1 h2; simp at h2
  | cons c t ih =>
    intro p rest T h
    cases t with
    | nil => unfold breakSep at h; injection h with h1 h2; simp at h2
    | cons d rest0 =>
      unfold breakSep at h
      by_cases hc : (isTerm c && isWs d) = true
      · rw [if_pos hc] at h
        injection h with h1 h2
        injection h2 with h2
        injection h2 with h2a h2b
        have : ((d :: rest0).dropWhile isWs).length ≤ (d :: rest0).length :=
          (List.dropWhile_sublist _).length_le
        rw [h2b] at this
        simp only [List.length_cons] at this ⊢
        omega
      · rw [if_neg hc] at h
        rcases hbs : breakSep (d :: rest0) with ⟨q, o⟩
        rw [hbs] at h
        injection h with h1 h2
        subst h2
        have := ih hbs
        simp only [List.length_cons] at this ⊢
        omega

theorem splitSentF_fuel : ∀ (n : ℕ) {m : ℕ} {l : List Char},
    l.length < n → l.length < m → splitSentF n l = splitSentF m l := by
  intro n
  induction n with
  | zero => intro m l h; omega
  | succ n ih =>
    intro m l hn hm
    cases m with
    | zero => omega
    | succ m =>
      simp only [splitSentF]
      rcases hbs : breakSep l with ⟨p, o⟩
      cases o with
      | none => rfl
      | some tr =>
        rcases tr with ⟨T, rest⟩
        have hlt := breakSep_rest_lt hbs
        exact congrArg (p :: ·) (ih (by omega) (by omega))

theorem splitSent_eq_none {l p : List Char} (h : breakSep l = (p, none)) :
    splitSent l = [p] := by
  simp only [splitSent, splitSentF]
  rw [h]

theorem splitSent_eq_some {l p rest : List Char} {T : Char}
    (h : breakSep l = (p, some (T, rest))) : splitSent l = p :: splitSent rest := by
  have hlt := breakSep_rest_lt h
  have hstep : splitSentF (l.length + 1) l = p :: splitSentF l.length rest := by
    simp only [splitSentF]; rw [h]
  have hfuel : splitSentF l.length rest = splitSentF (rest.length + 1) rest :=
    splitSentF_fuel l.length (by omega) (by omega)
  show splitSentF (l.length + 1) l = p :: splitSentF (rest.length + 1) rest
  rw [hstep, hfuel]

/-! ## Comma-splitter lemmas -/

theorem breakComma_none : ∀ {l p : List Char}, breakComma l = (p, none) → p = l := by
  intro l
  induction l with
  | nil => intro p h; unfold breakComma at h; injection h with h1 h2; exact h1.symm
  | cons c t ih =>
    intro p h
    cases t with
    | nil => unfold breakComma at h; injection h with h1 h2; exact h1.symm
    | cons d rest =>
      unfold breakComma at h
      by_cases hc : (c = ',' && isWs d) = true
      · rw [if_pos hc] at h; injection h with h1 h2; simp at h2
      · rw [if_neg hc] at h
        rcases hbs : breakComma (d :: rest) with ⟨q, o⟩
        rw [hbs] at h
        injection h with h1 h2
        subst h2
        rw [← h1, ih hbs]

theorem breakComma_some : ∀ {l p rest : List Char},
    breakComma l = (p, some rest) →
    (∃ w, (∀ c ∈ w, isWs c = true) ∧ l = p ++ ',' :: (w ++ rest)) ∧
      (∀ c t2, rest = c :: t2 → isWs c = false) := by
  intro l
  induction l with
  | nil => intro p rest h; unfold breakComma at h; injection h with h1 h2; simp at h2
  | cons c t ih =>
    intro p rest h
    cases t with
    | nil => unfold breakComma at h; injection h with h1 h2; simp at h2
    | cons d rest0 =>
      unfold breakComma at h
      by_cases hc : (c = ',' && isWs d) = true
      · rw [if_pos hc] at h
        injection h with h1 h2
        injection h2 with h2
        subst h1
        rcases Bool.and_eq_true .. |>.mp hc with ⟨hcomma, hws⟩
        have hcomma' : c = ',' := by simpa using hcomma
        subst hcomma'
        constructor
        · refine ⟨(d :: rest0).takeWhile isWs, ?_, ?_⟩
          · intro a ha; exact List.mem_takeWhile_imp ha
          · rw [← h2, List.nil_append, List.takeWhile_append_dropWhile]
        · intro a t2 hr
          rw [hr] at h2
          exact dropWhile_head_not (q := isWs) h2
      · rw [if_neg hc] at h
        rcases hbs : breakComma (d :: rest0) with ⟨q, o⟩
        rw [hbs] at h
        injection h with h1 h2
        subst h2
        obtain ⟨⟨w, hw, hdec⟩, hhead⟩ := ih hbs
        refine ⟨⟨w, hw, ?_⟩, hhead⟩
        rw [← h1, List.cons_append, ← hdec]

theorem breakComma_rest_lt : ∀ {l p rest : List Char},
    breakComma l = (p, some rest) → rest.length < l.length := by
  intro l
  induction l with
  | nil => intro p rest h; unfold breakComma at h; injection h with h1 h2; simp at h2
  | cons c t ih =>
    intro p rest h
    cases t with
    | nil => unfold breakComma at h; injection h with h1 h2; simp at h2
    | cons d rest0 =>
      unfold breakComma at h
      by_cases hc : (c = ',' && isWs d) = true
      · rw [if_pos hc] at h
        injection h with h1 h2
        injection h2 with h2
        have : ((d :: rest0).dropWhile isWs).length ≤ (d :: rest0).length :=
          (List.dropWhile_sublist _).length_le
        rw [h2] at this
        simp only [List.length_cons] at this ⊢
        omega
      · rw [if_neg hc] at h
        rcases hbs : breakComma (d :: rest0) with ⟨q, o⟩
        rw [hbs] at h
        injection h with h1 h2
        subst h2
        have := ih hbs
        simp only [List.length_cons] at this ⊢
        omega

theorem splitCommaF_fuel : ∀ (n : ℕ) {m : ℕ} {l : List Char},
    l.length < n → l.length < m → splitCommaF n l = splitCommaF m l := by
  intro n
  induction n with
  | zero => intro m l h; omega
  | succ n ih =>
    intro m l hn hm
    cases m with
    | zero => omega
    | succ m =>
      simp only [splitCommaF]
      rcases hbs : breakComma l with ⟨p, o⟩
      cases o with
      | none => rfl
      | some rest =>
        have hlt := breakComma_rest_lt hbs
        exact congrArg (fun x => p :: [','] :: x) (ih (by omega) (by omega))

theorem splitComma_eq_none {l p : List Char} (h : breakComma l = (p, none)) :
    splitComma l = [p] := by
  simp only [splitComma, splitCommaF]
  rw [h]

theorem splitComma_eq_some {l p rest : List Char} (h : breakComma l = (p, some rest)) :
    splitComma l = p :: [','] :: splitComma rest := by
  have hlt := breakComma_rest_lt h
  have hstep : splitCommaF (l.length + 1) l = p :: [','] :: splitCommaF l.length rest := by
    simp only [splitCommaF]; rw [h]
  have hfuel : splitCommaF l.length rest = splitCommaF (rest.length + 1) rest :=
    splitCommaF_fuel l.length (by omega) (by omega)
  show splitCommaF (l.length + 1) l = p :: [','] :: splitCommaF (rest.length + 1) rest
  rw [hstep, hfuel]

theorem splitComma_part_length_aux : ∀ (n : ℕ) (l : List Char), l.length < n →
    ∀ p ∈ splitComma l, p.length ≤ l.length := by
  intro n
  induction n with
  | zero => intro l h; omega
  | succ n ih =>
    intro l hl p hp
    rcases hb : breakComma l with ⟨p0, o⟩
    cases o with
    | none =>
      obtain rfl := breakComma_none hb
      rw [splitComma_eq_none hb] at hp
      simp at hp
      subst hp
      exact le_refl _
    | some rest =>
      rw [splitComma_eq_some hb] at hp
      obtain ⟨⟨w, hw, hdec⟩, hh⟩ := breakComma_some hb
      have hrl := breakComma_rest_lt hb
      have hlen : l.length = p0.length + 1 + (w.length + rest.length) := by
        rw [hdec]; simp [List.length_append]; omega
      rcases List.mem_cons.mp hp with rfl | hp2
      · omega
      rcases List.mem_cons.mp hp2 with rfl | hp3
      · simp only [List.length_cons, List.length_nil]; omega
      · have := ih rest (by omega) p hp3
        omega

theorem splitComma_part_length {l p : List Char} (hp : p ∈ splitComma l) :
    p.length ≤ l.length :=
  splitComma_part_length_aux (l.length + 1) l (by omega) p hp

theorem splitComma_part_head_aux : ∀ (n : ℕ) (l : List Char), l.length < n →
    headNotWs l → ∀ p ∈ splitComma l, headNotWs p := by
  intro n
  induction n with
  | zero => intro l h; omega
  | succ n ih =>
    intro l hl hgood p hp
    rcases hb : breakComma l with ⟨p0, o⟩
    cases o with
    | none =>
      obtain rfl := breakComma_none hb
      rw [splitComma_eq_none hb] at hp
      simp at hp
      subst hp
      exact hgood
    | some rest =>
      rw [splitComma_eq_some hb] at hp
      obtain ⟨⟨w, hw, hdec⟩, hh⟩ := breakComma_some hb
      have hrl := breakComma_rest_lt hb
      rcases List.mem_cons.mp hp with rfl | hp2
      · intro c r hc
        exact hgood c (r ++ ',' :: (w ++ rest)) (by rw [hdec, hc, List.cons_append])
      rcases List.mem_cons.mp hp2 with rfl | hp3
      · intro c r hc
        injection hc with hc1 hc2
        subst hc1
        decide
      · exact ih rest (by omega) (fun c r hc => hh c r hc) p hp3

theorem splitComma_part_head {l : List Char} (hgood : headNotWs l) :
    ∀ p ∈ splitComma l, headNotWs p :=
  splitComma_part_head_aux (l.length + 1) l (by omega) hgood

/-! ## Accumulator lemmas -/

theorem keepF_append (a b : List Char) : keepF (a ++ b) = keepF a ++ keepF b :=
  List.filter_append ..

theorem flatten_filter_ne_nil : ∀ xs : List (List Char),
    (xs.filter (fun p => !p.isEmpty)).flatten = xs.flatten := by
  intro xs
  induction xs with
  | nil => rfl
  | cons x rest ih =>
    by_cases hx : x.isEmpty
    · have : x = [] := by simpa using hx
      subst this
      simpa using ih
    · rw [List.filter_cons, if_pos (by simp [hx]), List.flatten_cons, List.flatten_cons, ih]

theorem accumulate_flatten_keepF : ∀ (parts : List (List Char)) (cur : List Char),
    keepF (accumulate parts cur).flatten = keepF cur ++ keepF parts.flatten := by
  intro parts
  induction parts with
  | nil =>
    intro cur
    by_cases hc : cur.isEmpty
    · have : cur = [] := by simpa using hc
      subst this
      simp [accumulate, keepF]
    · have hacc : accumulate [] cur = [trim cur] := by
        unfold accumulate
        rw [if_neg (by simpa using hc)]
      rw [hacc, List.flatten_cons, List.flatten_nil, List.append_nil, keepF_trim]
      simp [keepF]
  | cons p rest ih =>
    intro cur
    unfold accumulate
    by_cases hcond : (MAX_CHARS < (cur ++ p).length && !cur.isEmpty) = true
    · rw [if_pos hcond]
      rw [List.flatten_cons, keepF_append, keepF_trim, ih, List.flatten_cons, keepF_append]
    · rw [if_neg hcond, ih, keepF_append, List.flatten_cons, keepF_append, List.append_assoc]

theorem accumulate_chunk_shape : ∀ (parts : List (List Char)) (cur : List Char),
    (∀ p ∈ parts, p ≠ [] ∧ headNotWs p) →
    (cur = [] ∨ (cur ≠ [] ∧ headNotWs cur)) →
    ∀ c ∈ accumulate parts cur, ∃ buf, buf ≠ [] ∧ headNotWs buf ∧ c = trim buf := by
  intro parts
  induction parts with
  | nil =>
    intro cur hparts hcur c hc
    unfold accumulate at hc
    by_cases he : cur.isEmpty
    · rw [if_pos he] at hc; simp at hc
    · rw [if_neg he] at hc
      simp at hc
      subst hc
      rcases hcur with rfl | ⟨hne, hgood⟩
      · simp at he
      · exact ⟨cur, hne, hgood, rfl⟩
  | cons p rest ih =>
    intro cur hparts hcur c hc
    have hp := hparts p (List.mem_cons_self ..)
    have hrest : ∀ q ∈ rest, q ≠ [] ∧ headNotWs q :=
      fun q hq => hparts q (List.mem_cons_of_mem _ hq)
    unfold accumulate at hc
    by_cases hcond : (MAX_CHARS < (cur ++ p).length && !cur.isEmpty) = true
    · rw [if_pos hcond] at hc
      rcases List.mem_cons.mp hc with rfl | hc2
      · rcases hcur with rfl | ⟨hne, hgood⟩
        · simp [MAX_CHARS] at hcond
        · exact ⟨cur, hne, hgood, rfl⟩
      · exact ih p hrest (Or.inr hp) c hc2
    · rw [if_neg hcond] at hc
      refine ih (cur ++ p) hrest ?_ c hc
      rcases hcur with rfl | ⟨hne, hgood⟩
      · rw [List.nil_append]; exact Or.inr hp
      · right
        refine ⟨by simp [hne], ?_⟩
        rcases cur with _ | ⟨c0, r0⟩
        · exact absurd rfl hne
        · intro a r ha
          rw [List.cons_append] at ha
          injection ha with ha1 ha2
          subst ha1
          exact hgood c0 r0 rfl

theorem accumulate_self_mem : ∀ (parts : List (List Char)) (cur : List Char),
    MAX_CHARS < cur.length → trim cur ∈ accumulate parts cur := by
  intro parts
  cases parts with
  | nil =>
    intro cur hlen
    have hne : cur.isEmpty = false := by
      cases cur with
      | nil => simp [MAX_CHARS] at hlen
      | cons a r => rfl
    unfold accumulate
    rw [if_neg (by simp [hne])]
    exact List.mem_cons_self ..
  | cons p rest =>
    intro cur hlen
    have hne : cur.isEmpty = false := by
      cases cur with
      | nil => simp [MAX_CHARS] at hlen
      | cons a r => rfl
    have hcond : (MAX_CHARS < (cur ++ p).length && !cur.isEmpty) = true := by
      simp only [Bool.and_eq_true, decide_eq_true_eq, hne, Bool.not_false]
      refine ⟨?_, trivial⟩
      rw [List.length_append]
      omega
    unfold accumulate
    rw [if_pos hcond]
    exact List.mem_cons_self ..

theorem accumulate_long_mem : ∀ (parts : List (List Char)) (cur p : List Char),
    p ∈ parts → MAX_CHARS < p.length → trim p ∈ accumulate parts cur := by
  intro parts
  induction parts with
  | nil => intro cur p hp; simp at hp
  | cons q rest ih =>
    intro cur p hp hlen
    rcases List.mem_cons.mp hp with rfl | hp2
    · unfold accumulate
      by_cases hcond : (MAX_CHARS < (cur ++ p).length && !cur.isEmpty) = true
      · rw [if_pos hcond]
        exact List.mem_cons_of_mem _ (accumulate_self_mem rest p hlen)
      · rw [if_neg hcond]
        have hcur : cur = [] := by
          by_contra hne
          apply hcond
          simp only [Bool.and_eq_true, decide_eq_true_eq, Bool.not_eq_true']
          constructor
          · rw [List.length_append]; omega
          · cases cur with
            | nil => exact absurd rfl hne
            | cons a r => rfl
        subst hcur
        rw [List.nil_append]
        exact accumulate_self_mem rest p hlen
    · unfold accumulate
      by_cases hcond : (MAX_CHARS < (cur ++ q).length && !cur.isEmpty) = true
      · rw [if_pos hcond]
        exact List.mem_cons_of_mem _ (ih q p hp2 hlen)
      · rw [if_neg hcond]
        exact ih (cur ++ q) p hp2 hlen

/-! ## Well-formedness of sentences and chunks -/

theorem headNotWs_of_trim_eq {l : List Char} (h : trim l = l) : headNotWs l :=
  fun c r hl => trim_head_not_ws (h.trans hl)

theorem sentences_wf {t : List Char} : ∀ s ∈ sentences t, trim s = s ∧ s ≠ [] := by
  intro s hs
  obtain ⟨s0, hs0, rfl⟩ := List.mem_map.mp hs
  obtain ⟨hmem, hne⟩ := List.mem_filter.mp hs0
  have htr : trim s0 ≠ [] := by simpa using hne
  by_cases hlast : lastIsTerm s0
  · rw [if_pos hlast, List.append_nil]
    exact ⟨trim_idem s0, htr⟩
  · rw [if_neg hlast]
    constructor
    · refine trim_eq_self_of ?_ ?_
      · intro c hc
        cases hcase : trim s0 with
        | nil => exact absurd hcase htr
        | cons a r =>
          rw [hcase, List.cons_append, List.head?_cons] at hc
          injection hc with hc1
          subst hc1
          exact trim_head_not_ws hcase
      · intro c hc
        rw [List.getLast?_concat] at hc
        injection hc with hc1
        subst hc1
        decide
    · simp

theorem chunksOfSentence_wf {s : List Char} (hs : trim s = s) (hne : s ≠ []) :
    ∀ c ∈ chunksOfSentence s, c ≠ [] ∧ trim c = c := by
  intro c hc
  unfold chunksOfSentence at hc
  by_cases hlen : s.length ≤ MAX_CHARS
  · rw [if_pos hlen] at hc
    simp at hc
    subst hc
    exact ⟨hne, hs⟩
  · rw [if_neg hlen] at hc
    have hparts : ∀ p ∈ (splitComma s).filter (fun p => !p.isEmpty), p ≠ [] ∧ headNotWs p := by
      intro p hp
      obtain ⟨hpm, hpne⟩ := List.mem_filter.mp hp
      exact ⟨by simpa using hpne, splitComma_part_head (headNotWs_of_trim_eq hs) p hpm⟩
    obtain ⟨buf, hbne, hbgood, rfl⟩ :=
      accumulate_chunk_shape _ [] hparts (Or.inl rfl) c hc
    cases buf with
    | nil => exact absurd rfl hbne
    | cons b r =>
      have hb : isWs b = false := hbgood b r rfl
      exact ⟨trim_ne_nil_of_mem (List.mem_cons_self ..) hb, trim_idem (b :: r)⟩

theorem splitText_wf {t : List Char} : ∀ c ∈ splitText t, c ≠ [] ∧ trim c = c := by
  intro c hc
  unfold splitText at hc
  obtain ⟨L, hL, hcL⟩ := List.mem_flatten.mp hc
  obtain ⟨s, hsm, rfl⟩ := List.mem_map.mp hL
  obtain ⟨hstrim, hsne⟩ := sentences_wf s hsm
  exact chunksOfSentence_wf hstrim hsne c hcL

theorem splitText_eq_nil_of_flatten {t : List Char} (h : (splitText t).flatten = []) :
    splitText t = [] := by
  cases hs : splitText t with
  | nil => rfl
  | cons c rest =>
    rw [hs, List.flatten_cons] at h
    obtain ⟨hc, -⟩ := List.append_eq_nil.mp h
    exact absurd hc (splitText_wf c (hs ▸ List.mem_cons_self ..)).1

/-! ## The segmenter preserves every character that is neither whitespace nor
a sentence terminator -/

theorem keepF_comma : keepF [','] = [','] := by decide

theorem keepF_cons_term {T : Char} (hT : isTerm T = true) (x : List Char) :
    keepF (T :: x) = keepF x := by
  unfold keepF
  rw [List.filter_cons_of_neg (by simp [hT])]

theorem keepF_comma_flatten_aux : ∀ (n : ℕ) (l : List Char), l.length < n →
    keepF (splitComma l).flatten = keepF l := by
  intro n
  induction n with
  | zero => intro l h; omega
  | succ n ih =>
    intro l hl
    rcases hb : breakComma l with ⟨p0, o⟩
    cases o with
    | none =>
      obtain rfl := breakComma_none hb
      rw [splitComma_eq_none hb, List.flatten_cons, List.flatten_nil, List.append_nil]
    | some rest =>
      obtain ⟨⟨w, hw, hdec⟩, -⟩ := breakComma_some hb
      have hrl := breakComma_rest_lt hb
      have hwnil : keepF w = [] := by
        unfold keepF
        exact List.filter_eq_nil_iff.mpr (fun c hc => by simp [hw c hc])
      have hcomma : keepF (',' :: (w ++ rest)) = ',' :: (keepF w ++ keepF rest) := by
        unfold keepF
        rw [List.filter_cons_of_pos (by decide), List.filter_append]
      rw [splitComma_eq_some hb, List.flatten_cons, List.flatten_cons, keepF_append,
        keepF_append, keepF_comma, ih rest (by omega), hdec, keepF_append, hcomma, hwnil,
        List.nil_append]
      rfl

theorem keepF_comma_flatten (l : List Char) : keepF (splitComma l).flatten = keepF l :=
  keepF_comma_flatten_aux (l.length + 1) l (by omega)

theorem keepF_chunksOfSentence (s : List Char) :
    keepF (chunksOfSentence s).flatten = keepF s := by
  unfold chunksOfSentence
  by_cases hlen : s.length ≤ MAX_CHARS
  · rw [if_pos hlen, List.flatten_cons, List.flatten_nil, List.append_nil]
  · rw [if_neg hlen, accumulate_flatten_keepF, flatten_filter_ne_nil, keepF_comma_flatten]
    rfl

theorem keepF_sentence_piece (p : List Char) :
    keepF (trim p ++ (if lastIsTerm p then [] else ['.'])) = keepF p := by
  rw [keepF_append, keepF_trim]
  by_cases hp : lastIsTerm p
  · rw [if_pos hp]; simp [keepF]
  · rw [if_neg hp]
    have : keepF ['.'] = [] := by decide
    rw [this, List.append_nil]

theorem keepF_sentences_aux : ∀ (n : ℕ) (l : List Char), l.length < n →
    keepF (sentences l).flatten = keepF l := by
  intro n
  induction n with
  | zero => intro l h; omega
  | succ n ih =>
    intro l hl
    rcases hb : breakSep l with ⟨p0, o⟩
    cases o with
    | none =>
      obtain rfl := breakSep_none hb
      unfold sentences
      rw [splitSent_eq_none hb, List.filter_cons]
      by_cases hp : (trim p0).isEmpty
      · rw [if_neg (by simp [hp])]
        simp only [List.filter_nil, List.map_nil, List.flatten_nil]
        exact (keepF_allWs (allWs_of_trim_eq_nil (by simpa using hp))).symm
      · rw [if_pos (by simp [hp]), List.map_cons, List.filter_nil, List.map_nil,
          List.flatten_cons, List.flatten_nil, List.append_nil]
        exact keepF_sentence_piece p0
    | some tr =>
      rcases tr with ⟨T, rest⟩
      obtain ⟨hT, w, hw, hdec⟩ := breakSep_some hb
      have hrl := breakSep_rest_lt hb
      have hsplit : sentences l =
          (if !(trim p0).isEmpty then [trim p0 ++ (if lastIsTerm p0 then [] else ['.'])]
           else []) ++ sentences rest := by
        unfold sentences
        rw [splitSent_eq_some hb, List.filter_cons]
        by_cases hp : (trim p0).isEmpty
        · rw [if_neg (by simp [hp]), if_neg (by simp [hp]), List.nil_append]
        · rw [if_pos (by simp [hp]), if_pos (by simp [hp]), List.map_cons]
          rfl
      have hrest : keepF l = keepF p0 ++ keepF rest := by
        rw [hdec, keepF_append, keepF_cons_term hT, keepF_append,
          keepF_allWs hw, List.nil_append]
      rw [hsplit, List.flatten_append, keepF_append, ih rest (by omega), hrest]
      congr 1
      by_cases hp : (trim p0).isEmpty
      · rw [if_neg (by simp [hp])]
        simp only [List.flatten_nil]
        exact (keepF_allWs (allWs_of_trim_eq_nil (by simpa using hp))).symm
      · rw [if_pos (by simp [hp]), List.flatten_cons, List.flatten_nil, List.append_nil]
        exact keepF_sentence_piece p0

theorem keepF_sentences (l : List Char) : keepF (sentences l).flatten = keepF l :=
  keepF_sentences_aux (l.length + 1) l (by omega)

theorem keepF_flatmap : ∀ xs : List (List Char),
    keepF ((xs.map chunksOfSentence).flatten).flatten = keepF xs.flatten := by
  intro xs
  induction xs with
  | nil => rfl
  | cons s rest ih =>
    rw [List.map_cons, List.flatten_cons, List.flatten_append, keepF_append, ih,
      List.flatten_cons, keepF_append, keepF_chunksOfSentence]

theorem keepF_splitText (t : List Char) : keepF (splitText t).flatten = keepF t := by
  unfold splitText
  rw [keepF_flatmap, keepF_sentences]

/-! ## Relating captions back to chunks -/

theorem buildCaps_filter_texts (σ : Sec) : ∀ (L : List (List Char × Sec)) (total d acc : ℚ),
    ((buildCaps total d acc L).filter (fun c => decide (c.sec = σ))).map TimedCaption.text
      = (L.filter (fun x => decide (x.2 = σ))).map Prod.fst := by
  intro L
  induction L with
  | nil => intro total d acc; rfl
  | cons x rest ih =>
    intro total d acc
    rcases x with ⟨txt, s⟩
    unfold buildCaps
    by_cases hs : s = σ
    · rw [List.filter_cons_of_pos (by simpa using hs),
        List.filter_cons_of_pos (by simpa using hs), List.map_cons, List.map_cons, ih]
    · rw [List.filter_cons_of_neg (by simpa using hs),
        List.filter_cons_of_neg (by simpa using hs), ih]

theorem filter_tag_eq (xs : List (List Char)) (σ : Sec) :
    ((xs.map (fun c => (c, σ))).filter (fun x => decide (x.2 = σ))).map Prod.fst = xs := by
  induction xs with
  | nil => rfl
  | cons c rest ih =>
    rw [List.map_cons, List.filter_cons_of_pos (by simp), List.map_cons, ih]

theorem filter_tag_ne (xs : List (List Char)) {σ τ : Sec} (h : τ ≠ σ) :
    (xs.map (fun c => (c, τ))).filter (fun x => decide (x.2 = σ)) = [] := by
  induction xs with
  | nil => rfl
  | cons c rest ih =>
    rw [List.map_cons, List.filter_cons_of_neg (by simpa using h), ih]

theorem getTimedCaptions_section_texts (script : Script) (d : ℚ) (σ : Sec) :
    ((getTimedCaptions script d).filter (fun c => decide (c.sec = σ))).map TimedCaption.text
      = (taggedChunks script |>.filter (fun x => decide (x.2 = σ))).map Prod.fst := by
  unfold getTimedCaptions
  rw [buildCaps_filter_texts]

/-! ## Timeline structure: `buildCaps` tiles the duration interval -/

theorem covers_nil_eq {a b : ℚ} (h : Covers a b []) : a = b := by
  cases h; rfl

theorem covers_head_start {a b : ℚ} {c : TimedCaption} {rest : List TimedCaption}
    (h : Covers a b (c :: rest)) : c.startTime = a := by
  cases h; rfl

theorem covers_tail {a b : ℚ} {c : TimedCaption} {rest : List TimedCaption}
    (h : Covers a b (c :: rest)) : c.startTime < c.endTime ∧ Covers c.endTime b rest := by
  cases h with
  | cons _ _ _ hlt hrest => exact ⟨hlt, hrest⟩

theorem covers_le {a b : ℚ} {caps : List TimedCaption} (h : Covers a b caps) : a ≤ b := by
  induction h with
  | nil => exact le_refl _
  | cons c b rest hlt hrest ih => exact le_trans (le_of_lt hlt) ih

theorem covers_mem_bounds {a b : ℚ} {caps : List TimedCaption} (h : Covers a b caps) :
    ∀ c ∈ caps, a ≤ c.startTime ∧ c.startTime < c.endTime ∧ c.endTime ≤ b := by
  induction h with
  | nil => intro c hc; simp at hc
  | cons hd b rest hlt hrest ih =>
    intro c hc
    rcases List.mem_cons.mp hc with rfl | hc2
    · exact ⟨le_refl _, hlt, covers_le hrest⟩
    · obtain ⟨h1, h2, h3⟩ := ih c hc2
      exact ⟨le_trans (le_of_lt hlt) h1, h2, h3⟩

theorem covers_chain_es {a b : ℚ} {caps : List TimedCaption} (h : Covers a b caps) :
    caps.Chain' (fun x y => x.endTime = y.startTime) := by
  induction h with
  | nil => exact List.chain'_nil
  | cons hd b rest hlt hrest ih =>
    cases rest with
    | nil => simp
    | cons c2 rest2 =>
      exact List.chain'_cons.mpr ⟨(covers_head_start hrest).symm, ih⟩

theorem covers_pairwise_start {a b : ℚ} {caps : List TimedCaption} (h : Covers a b caps) :
    caps.Pairwise (fun x y => x.startTime ≤ y.startTime) := by
  induction h with
  | nil => exact List.Pairwise.nil
  | cons hd b rest hlt hrest ih =>
    refine List.Pairwise.cons (fun y hy => ?_) ih
    have := (covers_mem_bounds hrest y hy).1
    linarith

theorem covers_getLast_end {a b : ℚ} {caps : List TimedCaption} (h : Covers a b caps)
    (hne : caps ≠ []) : ∃ c, caps.getLast? = some c ∧ c.endTime = b := by
  induction h with
  | nil => exact absurd rfl hne
  | cons hd b rest hlt hrest ih =>
    cases rest with
    | nil => exact ⟨hd, rfl, covers_nil_eq hrest⟩
    | cons c2 rest2 =>
      obtain ⟨c, hc1, hc2⟩ := ih (by simp)
      exact ⟨c, by rw [List.getLast?_cons_cons]; exact hc1, hc2⟩

theorem covers_find_cover {a b : ℚ} {caps : List TimedCaption} (h : Covers a b caps)
    {t : ℚ} (h1 : a ≤ t) (h2 : t < b) :
    ∃ c ∈ caps, c.startTime ≤ t ∧ t < c.endTime := by
  induction h with
  | nil => exact absurd (lt_of_le_of_lt h1 h2) (lt_irrefl _)
  | cons hd b rest hlt hrest ih =>
    by_cases hc : t < hd.endTime
    · exact ⟨hd, List.mem_cons_self .., h1, hc⟩
    · obtain ⟨c, hc1, hc2, hc3⟩ := ih (le_of_not_lt hc) h2
      exact ⟨c, List.mem_cons_of_mem _ hc1, hc2, hc3⟩

theorem buildCaps_ne_nil {total d acc : ℚ} {L : List (List Char × Sec)} (h : L ≠ []) :
    buildCaps total d acc L ≠ [] := by
  cases L with
  | nil => exact absurd rfl h
  | cons x rest => rcases x with ⟨txt, s⟩; simp [buildCaps]

theorem buildCaps_covers : ∀ (L : List (List Char × Sec)) (total d acc : ℚ),
    0 < total → 0 < d → (∀ x ∈ L, x.1 ≠ []) →
    Covers (acc / total * d) ((acc + sumLen L) / total * d) (buildCaps total d acc L) := by
  intro L
  induction L with
  | nil =>
    intro total d acc htotal hd hx
    have : acc + sumLen [] = acc := by simp [sumLen]
    rw [this]
    exact Covers.nil _
  | cons x rest ih =>
    intro total d acc htotal hd hx
    rcases x with ⟨txt, s⟩
    have hlen : (0 : ℚ) < txt.length := by
      have : txt ≠ [] := hx (txt, s) (List.mem_cons_self ..)
      have : 0 < txt.length := List.length_pos.mpr this
      exact_mod_cast this
    have hlt : acc / total * d < (acc + txt.length) / total * d := by
      apply mul_lt_mul_of_pos_right _ hd
      rw [div_lt_div_iff_of_pos_right htotal]
      linarith
    have hrest := ih total d (acc + txt.length) htotal hd
      (fun y hy => hx y (List.mem_cons_of_mem _ hy))
    have hsum : acc + sumLen ((txt, s) :: rest) = acc + txt.length + sumLen rest := by
      simp [sumLen]; ring
    have hgoal : buildCaps total d acc ((txt, s) :: rest) =
        { text := txt, startTime := acc / total * d,
          endTime := (acc + (txt.length : ℚ)) / total * d, sec := s }
          :: buildCaps total d (acc + txt.length) rest := rfl
    rw [hsum, hgoal]
    exact Covers.cons
      { text := txt, startTime := acc / total * d,
        endTime := (acc + (txt.length : ℚ)) / total * d, sec := s } _ _ hlt hrest

theorem map_fst_tag (xs : List (List Char)) (σ : Sec) :
    (xs.map (fun c => (c, σ))).map Prod.fst = xs := by
  induction xs with
  | nil => rfl
  | cons c rest ih => simp [ih]

theorem taggedChunks_map_fst (script : Script) :
    (taggedChunks script).map Prod.fst
      = splitText script.hook ++ splitText script.body ++ splitText script.outro := by
  unfold taggedChunks
  rw [List.map_append, List.map_append, map_fst_tag, map_fst_tag, map_fst_tag]

theorem taggedChunks_fst_ne_nil (script : Script) :
    ∀ x ∈ taggedChunks script, x.1 ≠ [] := by
  intro x hx
  have hmem : x.1 ∈ (taggedChunks script).map Prod.fst := List.mem_map_of_mem _ hx
  rw [taggedChunks_map_fst] at hmem
  rcases List.mem_append.mp hmem with hmem2 | hc
  · rcases List.mem_append.mp hmem2 with ha | hb
    · exact (splitText_wf _ ha).1
    · exact (splitText_wf _ hb).1
  · exact (splitText_wf _ hc).1

theorem sumLen_tag (xs : List (List Char)) (σ : Sec) :
    sumLen (xs.map (fun c => (c, σ))) = (xs.flatten.length : ℚ) := by
  induction xs with
  | nil => simp [sumLen]
  | cons c rest ih =>
    simp only [List.map_cons, sumLen, List.sum_cons, List.flatten_cons, List.length_append]
    push_cast
    simp only [sumLen] at ih
    rw [ih]

theorem sumLen_append (A B : List (List Char × Sec)) :
    sumLen (A ++ B) = sumLen A + sumLen B := by
  simp [sumLen]

theorem sumLen_taggedChunks (script : Script) :
    sumLen (taggedChunks script) = (totalCharsOf script : ℚ) := by
  unfold taggedChunks totalCharsOf
  rw [sumLen_append, sumLen_append, sumLen_tag, sumLen_tag, sumLen_tag]
  rw [List.length_append, List.length_append]
  push_cast
  ring

theorem getTimedCaptions_covers (script : Script) (d : ℚ)
    (hT : 0 < totalCharsOf script) (hd : 0 < d) :
    Covers 0 d (getTimedCaptions script d) := by
  have hT' : (0 : ℚ) < (totalCharsOf script : ℚ) := by exact_mod_cast hT
  have h := buildCaps_covers (taggedChunks script) (totalCharsOf script) d 0 hT' hd
    (taggedChunks_fst_ne_nil script)
  rw [sumLen_taggedChunks, zero_add, div_self (ne_of_gt hT'), one_mul, zero_div,
    zero_mul] at h
  exact h

theorem taggedChunks_ne_nil {script : Script} (hT : 0 < totalCharsOf script) :
    taggedChunks script ≠ [] := by
  intro h
  have := congrArg (List.map Prod.fst) h
  rw [taggedChunks_map_fst] at this
  simp only [List.map_nil] at this
  obtain ⟨hab, hc⟩ := List.append_eq_nil.mp this
  obtain ⟨ha, hb⟩ := List.append_eq_nil.mp hab
  unfold totalCharsOf at hT
  rw [ha, hb, hc] at hT
  simp at hT

/-! ## The image-index selection on a valid timeline -/

theorem find_body_min {a b : ℚ} {caps : List TimedCaption} (h : Covers a b caps)
    {c0 : TimedCaption} (hf : caps.find? (fun c => decide (c.sec = Sec.body)) = some c0) :
    ∀ c ∈ caps, c.sec = Sec.body → c0.startTime ≤ c.startTime := by
  induction h with
  | nil => simp at hf
  | cons hd b rest hlt hrest ih =>
    by_cases hhd : hd.sec = Sec.body
    · rw [List.find?_cons_of_pos _ (by simpa using hhd)] at hf
      injection hf with hf1
      subst hf1
      intro c hc hcb
      rcases List.mem_cons.mp hc with rfl | hc2
      · exact le_refl _
      · have hb := (covers_mem_bounds hrest c hc2).1
        linarith
    · rw [List.find?_cons_of_neg _ (by simpa using hhd)] at hf
      intro c hc hcb
      rcases List.mem_cons.mp hc with rfl | hc2
      · exact absurd hcb hhd
      · exact ih hf c hc2 hcb

theorem rev_find_body_max {a b : ℚ} {caps : List TimedCaption} (h : Covers a b caps)
    {c1 : TimedCaption}
    (hf : caps.reverse.find? (fun c => decide (c.sec = Sec.body)) = some c1) :
    ∀ c ∈ caps, c.sec = Sec.body → c.endTime ≤ c1.endTime := by
  induction h with
  | nil => simp at hf
  | cons hd b rest hlt hrest ih =>
    rw [List.reverse_cons, List.find?_append] at hf
    cases hrev : rest.reverse.find? (fun c => decide (c.sec = Sec.body)) with
    | some cx =>
      rw [hrev] at hf
      simp only [Option.or] at hf
      injection hf with hf1
      subst hf1
      intro c hc hcb
      rcases List.mem_cons.mp hc with rfl | hc2
      · have hcxmem : cx ∈ rest := List.mem_reverse.mp (List.mem_of_find?_eq_some hrev)
        obtain ⟨hx1, hx2, -⟩ := covers_mem_bounds hrest cx hcxmem
        linarith
      · exact ih hrev c hc2 hcb
    | none =>
      rw [hrev] at hf
      simp only [Option.or] at hf
      intro c hc hcb
      rcases List.mem_cons.mp hc with rfl | hc2
      · by_cases hhd : c.sec = Sec.body
        · rw [List.find?_cons_of_pos _ (by simpa using hhd)] at hf
          injection hf with hf1
          subst hf1
          exact le_refl _
        · exact absurd hcb hhd
      · have := List.find?_eq_none.mp hrev c (List.mem_reverse.mpr hc2)
        simp [hcb] at this

theorem selectCaption_some {caps : List TimedCaption} {t : ℚ} (hne : caps ≠ []) :
    ∃ c, selectCaption caps t = some c ∧ c ∈ caps := by
  unfold selectCaption
  cases hfind : caps.find? (fun c => decide (c.startTime ≤ t ∧ t < c.endTime)) with
  | some c => exact ⟨c, rfl, List.mem_of_find?_eq_some hfind⟩
  | none =>
    cases hl : caps.getLast? with
    | none =>
      rw [List.getLast?_eq_none_iff] at hl
      exact absurd hl hne
    | some c => exact ⟨c, rfl, List.mem_of_mem_getLast? hl⟩

theorem body_bounds {d t : ℚ} {caps : List TimedCaption} (hcov : Covers 0 d caps)
    {c : TimedCaption} (hsel : selectCaption caps t = some c) (hcb : c.sec = Sec.body)
    (ht0 : 0 ≤ t) (htd : t ≤ d) :
    bodyStartOf caps ≤ t ∧ 0 < bodyEndOf caps d - bodyStartOf caps := by
  have hcmem : c ∈ caps := by
    unfold selectCaption at hsel
    cases hfind : caps.find? (fun c => decide (c.startTime ≤ t ∧ t < c.endTime)) with
    | some cf =>
      rw [hfind] at hsel
      injection hsel with hsel1
      exact hsel1 ▸ List.mem_of_find?_eq_some hfind
    | none =>
      rw [hfind] at hsel
      exact List.mem_of_mem_getLast? hsel
  have hfb : (caps.find? (fun c => decide (c.sec = Sec.body))).isSome :=
    List.find?_isSome.mpr ⟨c, hcmem, by simpa using hcb⟩
  obtain ⟨c0, hc0⟩ := Option.isSome_iff_exists.mp hfb
  have hc0min := find_body_min hcov hc0
  have hfb1 : (caps.reverse.find? (fun c => decide (c.sec = Sec.body))).isSome :=
    List.find?_isSome.mpr ⟨c, List.mem_reverse.mpr hcmem, by simpa using hcb⟩
  obtain ⟨c1, hc1⟩ := Option.isSome_iff_exists.mp hfb1
  have hc1mem : c1 ∈ caps := List.mem_reverse.mp (List.mem_of_find?_eq_some hc1)
  have hc1max := rev_find_body_max hcov hc1
  obtain ⟨hb0, hb1, hb2⟩ := covers_mem_bounds hcov c1 hc1mem
  have hc1pos : 0 < c1.endTime := lt_of_le_of_lt hb0 hb1
  have hbS : bodyStartOf caps = c0.startTime := by
    unfold bodyStartOf
    rw [hc0]
  have hbE : bodyEndOf caps d = c1.endTime := by
    unfold bodyEndOf
    rw [hc1]
    show (if c1.endTime = 0 then d else c1.endTime) = c1.endTime
    rw [if_neg (ne_of_gt hc1pos)]
  obtain ⟨hcs0, hcse, hced⟩ := covers_mem_bounds hcov c hcmem
  have h1 : c0.startTime ≤ c.startTime := hc0min c hcmem hcb
  have h2 : c.endTime ≤ c1.endTime := hc1max c hcmem hcb
  obtain ⟨g0, g1, g2⟩ := covers_mem_bounds hcov c0 (List.mem_of_find?_eq_some hc0)
  constructor
  · rw [hbS]
    unfold selectCaption at hsel
    cases hfind : caps.find? (fun c => decide (c.startTime ≤ t ∧ t < c.endTime)) with
    | some cf =>
      rw [hfind] at hsel
      injection hsel with hsel1
      have hp := List.find?_some hfind
      rw [hsel1] at hp
      simp only [decide_eq_true_eq] at hp
      linarith [hp.1]
    | none =>
      by_cases hlt : t < d
      · obtain ⟨cx, hcx, hcx1, hcx2⟩ := covers_find_cover hcov ht0 hlt
        have := List.find?_eq_none.mp hfind cx hcx
        simp [hcx1, hcx2] at this
      · push_neg at hlt
        linarith
  · rw [hbS, hbE]
    linarith

theorem bodyIndex_upper (caps : List TimedCaption) (d t : ℚ) (n : ℤ) :
    bodyIndex caps d t n ≤ n - 1 := by
  unfold bodyIndex
  have := min_le_right
    ⌊(t - bodyStartOf caps) /
        (if bodyEndOf caps d - bodyStartOf caps = 0 then 1
         else bodyEndOf caps d - bodyStartOf caps) * ((n - 2 : ℤ) : ℚ)⌋
    (n - 2 - 1)
  omega

theorem bodyIndex_two (caps : List TimedCaption) (d t : ℚ) :
    bodyIndex caps d t 2 = 0 := by
  unfold bodyIndex
  norm_num

theorem bodyIndex_nonneg {caps : List TimedCaption} {d t : ℚ} {n : ℤ} (hn : 3 ≤ n)
    (h1 : bodyStartOf caps ≤ t) (h2 : 0 < bodyEndOf caps d - bodyStartOf caps) :
    0 ≤ bodyIndex caps d t n := by
  unfold bodyIndex
  rw [if_neg (ne_of_gt h2)]
  have hq : (0 : ℚ) ≤ (t - bodyStartOf caps) / (bodyEndOf caps d - bodyStartOf caps)
      * ((n - 2 : ℤ) : ℚ) := by
    apply mul_nonneg
    · exact div_nonneg (by linarith) (le_of_lt h2)
    · have : (0 : ℤ) ≤ n - 2 := by omega
      exact_mod_cast this
  have hfl : (0 : ℤ) ≤ ⌊(t - bodyStartOf caps) / (bodyEndOf caps d - bodyStartOf caps)
      * ((n - 2 : ℤ) : ℚ)⌋ := Int.floor_nonneg.mpr hq
  have : (0 : ℤ) ≤ n - 2 - 1 := by omega
  have := le_min hfl this
  omega

theorem accumulate_chunk_buf : ∀ (parts : List (List Char)) (cur : List Char),
    ∀ c ∈ accumulate parts cur, ∃ buf, buf ≠ [] ∧ c = trim buf := by
  intro parts
  induction parts with
  | nil =>
    intro cur c hc
    unfold accumulate at hc
    by_cases he : cur.isEmpty
    · rw [if_pos he] at hc; simp at hc
    · rw [if_neg he] at hc
      simp at hc
      subst hc
      exact ⟨cur, by simpa using he, rfl⟩
  | cons p rest ih =>
    intro cur c hc
    unfold accumulate at hc
    by_cases hcond : (MAX_CHARS < (cur ++ p).length && !cur.isEmpty) = true
    · rw [if_pos hcond] at hc
      rcases List.mem_cons.mp hc with rfl | hc2
      · refine ⟨cur, ?_, rfl⟩
        intro hnil
        subst hnil
        simp at hcond
      · exact ih p c hc2
    · rw [if_neg hcond] at hc
      exact ih (cur ++ p) c hc

theorem buildCaps_mem_text : ∀ {L : List (List Char × Sec)} {total d acc : ℚ}
    {cap : TimedCaption}, cap ∈ buildCaps total d acc L → cap.text ∈ L.map Prod.fst := by
  intro L
  induction L with
  | nil => intro total d acc cap hc; simp [buildCaps] at hc
  | cons x rest ih =>
    intro total d acc cap hc
    rcases x with ⟨txt, s⟩
    unfold buildCaps at hc
    rcases List.mem_cons.mp hc with rfl | hc2
    · exact List.mem_cons_self ..
    · exact List.mem_cons_of_mem _ (ih hc2)

theorem selectImageIndex_eq_of_sel {caps : List TimedCaption} {d t : ℚ} {n : ℤ}
    {c : TimedCaption} (h : selectCaption caps t = some c) :
    selectImageIndex caps d t n =
      if c.sec = Sec.hook then 0
      else if c.sec = Sec.outro then n - 1
      else bodyIndex caps d t n := by
  unfold selectImageIndex
  rw [h]

/-! ## Claims -/

/-- C1 (amended): for every timeline produced by `getTimedCaptions` on a script
with at least one character of chunks, every playback time `t ∈ [0, duration]`
and every `sceneCount ≥ 2`, the selected image index lies in
`[0, sceneCount − 1]`.  (For `sceneCount = 1` with a body-section caption the
code yields `−1`, see the counterexample.) -/
theorem selectImageIndex_in_range (script : Script) (d t : ℚ) (n : ℤ)
    (hT : 0 < totalCharsOf script) (hd : 0 < d) (ht0 : 0 ≤ t) (htd : t ≤ d)
    (hn : 2 ≤ n) :
    0 ≤ selectImageIndex (getTimedCaptions script d) d t n ∧
    selectImageIndex (getTimedCaptions script d) d t n ≤ n - 1 := by
  have hcov : Covers 0 d (getTimedCaptions script d) := getTimedCaptions_covers script d hT hd
  have hne : getTimedCaptions script d ≠ [] := buildCaps_ne_nil (taggedChunks_ne_nil hT)
  obtain ⟨c, hsel, hcmem⟩ := selectCaption_some (t := t) hne
  rw [selectImageIndex_eq_of_sel hsel]
  by_cases hhook : c.sec = Sec.hook
  · rw [if_pos hhook]
    omega
  · rw [if_neg hhook]
    by_cases houtro : c.sec = Sec.outro
    · rw [if_pos houtro]
      omega
    · rw [if_neg houtro]
      have hcb : c.sec = Sec.body := by
        cases hcs : c.sec
        · exact absurd hcs hhook
        · rfl
        · exact absurd hcs houtro
      constructor
      · rcases eq_or_lt_of_le hn with heq | hgt
        · rw [← heq, bodyIndex_two]
        · obtain ⟨hb1, hb2⟩ := body_bounds hcov hsel hcb ht0 htd
          exact bodyIndex_nonneg (by omega) hb1 hb2
      · have := bodyIndex_upper (getTimedCaptions script d) d t n
        omega

/-- C1 (counterexample): on a timeline whose only caption is body-tagged, the
image-index selection at `sceneCount = 1` returns `−1`, outside
`[0, sceneCount − 1] = [0, 0]` — the claimed clamping does not happen for
`sceneCount = 1`. -/
theorem selectImageIndex_scene1_body :
    selectImageIndex
        (getTimedCaptions { hook := "".toList, body := "Hi.".toList, outro := "".toList } 10)
        10 0 1 = -1 ∧
    ¬(0 ≤ selectImageIndex
        (getTimedCaptions { hook := "".toList, body := "Hi.".toList, outro := "".toList } 10)
        10 0 1) := by
  have h1 : splitText "".toList = [] := by decide
  have h2 : splitText "Hi.".toList = ["Hi.".toList] := by decide
  have hcaps : getTimedCaptions { hook := "".toList, body := "Hi.".toList, outro := "".toList } 10
      = [{ text := "Hi.".toList, startTime := 0, endTime := 10, sec := Sec.body }] := by
    unfold getTimedCaptions taggedChunks totalCharsOf
    rw [h1, h2]
    simp [buildCaps]
  rw [hcaps]
  constructor
  · simp [selectImageIndex, selectCaption, bodyIndex, bodyStartOf, bodyEndOf, List.find?]
  · simp [selectImageIndex, selectCaption, bodyIndex, bodyStartOf, bodyEndOf, List.find?]

/-- C1 (witness): the range theorem instantiated on a concrete script,
`d = 12`, `t = 5`, `sceneCount = 5`. -/
theorem selectImageIndex_in_range_witness :
    0 ≤ selectImageIndex
        (getTimedCaptions
          { hook := "Hi.".toList, body := "Yo.".toList, outro := "Go.".toList } 12) 12 5 5 ∧
    selectImageIndex
        (getTimedCaptions
          { hook := "Hi.".toList, body := "Yo.".toList, outro := "Go.".toList } 12) 12 5 5
      ≤ 5 - 1 :=
  selectImageIndex_in_range
    { hook := "Hi.".toList, body := "Yo.".toList, outro := "Go.".toList } 12 5 5
    (by decide) (by norm_num) (by norm_num) (by norm_num) (by norm_num)

/-- C2: on any script with `totalChars > 0` and any `duration > 0`, the caption
sequence has `startTime < endTime` on every caption, non-decreasing start
times, contiguous intervals (`endTime[i] = startTime[i+1]`), first
`startTime = 0` and last `endTime = duration`. -/
theorem getTimedCaptions_timeline_invariants (script : Script) (d : ℚ)
    (hT : 0 < totalCharsOf script) (hd : 0 < d) :
    (∀ c ∈ getTimedCaptions script d, c.startTime < c.endTime) ∧
    (getTimedCaptions script d).Pairwise (fun a b => a.startTime ≤ b.startTime) ∧
    (getTimedCaptions script d).Chain' (fun a b => a.endTime = b.startTime) ∧
    (getTimedCaptions script d).head?.map TimedCaption.startTime = some 0 ∧
    (getTimedCaptions script d).getLast?.map TimedCaption.endTime = some d := by
  have hcov : Covers 0 d (getTimedCaptions script d) := getTimedCaptions_covers script d hT hd
  have hne : getTimedCaptions script d ≠ [] := buildCaps_ne_nil (taggedChunks_ne_nil hT)
  refine ⟨fun c hc => (covers_mem_bounds hcov c hc).2.1, covers_pairwise_start hcov,
    covers_chain_es hcov, ?_, ?_⟩
  · cases hcaps : getTimedCaptions script d with
    | nil => exact absurd hcaps hne
    | cons c rest =>
      rw [hcaps] at hcov
      rw [List.head?_cons, Option.map_some']
      rw [covers_head_start hcov]
  · obtain ⟨c, hl, hend⟩ := covers_getLast_end hcov hne
    rw [hl, Option.map_some', hend]

/-- C2 (witness): the invariants instantiated on a concrete script with
`duration = 12`. -/
theorem getTimedCaptions_timeline_invariants_witness :
    (∀ c ∈ getTimedCaptions
        { hook := "Hi.".toList, body := "Yo.".toList, outro := "Go.".toList } 12,
      c.startTime < c.endTime) ∧
    (getTimedCaptions { hook := "Hi.".toList, body := "Yo.".toList, outro := "Go.".toList }
        12).Pairwise (fun a b => a.startTime ≤ b.startTime) ∧
    (getTimedCaptions { hook := "Hi.".toList, body := "Yo.".toList, outro := "Go.".toList }
        12).Chain' (fun a b => a.endTime = b.startTime) ∧
    (getTimedCaptions { hook := "Hi.".toList, body := "Yo.".toList, outro := "Go.".toList }
        12).head?.map TimedCaption.startTime = some 0 ∧
    (getTimedCaptions { hook := "Hi.".toList, body := "Yo.".toList, outro := "Go.".toList }
        12).getLast?.map TimedCaption.endTime = some 12 :=
  getTimedCaptions_timeline_invariants
    { hook := "Hi.".toList, body := "Yo.".toList, outro := "Go.".toList } 12
    (by decide) (by norm_num)

theorem taggedChunks_filter_hook (script : Script) :
    ((taggedChunks script).filter (fun x => decide (x.2 = Sec.hook))).map Prod.fst
      = splitText script.hook := by
  unfold taggedChunks
  rw [List.filter_append, List.filter_append, List.map_append, List.map_append,
    filter_tag_eq, filter_tag_ne _ (show Sec.body ≠ Sec.hook by decide),
    filter_tag_ne _ (show Sec.outro ≠ Sec.hook by decide)]
  simp

theorem taggedChunks_filter_body (script : Script) :
    ((taggedChunks script).filter (fun x => decide (x.2 = Sec.body))).map Prod.fst
      = splitText script.body := by
  unfold taggedChunks
  rw [List.filter_append, List.filter_append, List.map_append, List.map_append,
    filter_tag_eq, filter_tag_ne _ (show Sec.hook ≠ Sec.body by decide),
    filter_tag_ne _ (show Sec.outro ≠ Sec.body by decide)]
  simp

theorem taggedChunks_filter_outro (script : Script) :
    ((taggedChunks script).filter (fun x => decide (x.2 = Sec.outro))).map Prod.fst
      = splitText script.outro := by
  unfold taggedChunks
  rw [List.filter_append, List.filter_append, List.map_append, List.map_append,
    filter_tag_eq, filter_tag_ne _ (show Sec.hook ≠ Sec.outro by decide),
    filter_tag_ne _ (show Sec.body ≠ Sec.outro by decide)]
  simp

/-- C3 (amended): restricted to each section, concatenating the produced
caption texts reproduces the section's original text up to whitespace
normalization *and sentence-terminator normalization*: every character that is
neither whitespace nor one of `.`, `!`, `?` is reproduced exactly, in order.
(Terminator characters are not preserved: see the counterexample.) -/
theorem captionTexts_preserve_content (script : Script) (d : ℚ) :
    keepF ((((getTimedCaptions script d).filter
          (fun c => decide (c.sec = Sec.hook))).map TimedCaption.text).flatten)
        = keepF script.hook ∧
    keepF ((((getTimedCaptions script d).filter
          (fun c => decide (c.sec = Sec.body))).map TimedCaption.text).flatten)
        = keepF script.body ∧
    keepF ((((getTimedCaptions script d).filter
          (fun c => decide (c.sec = Sec.outro))).map TimedCaption.text).flatten)
        = keepF script.outro := by
  refine ⟨?_, ?_, ?_⟩
  · rw [getTimedCaptions_section_texts, taggedChunks_filter_hook, keepF_splitText]
  · rw [getTimedCaptions_section_texts, taggedChunks_filter_body, keepF_splitText]
  · rw [getTimedCaptions_section_texts, taggedChunks_filter_outro, keepF_splitText]

/-- C3 (counterexample): the hook `"Hi! Yo"` (whose sections each contain at
least one sentence) is *not* reproduced up to whitespace normalization: the
segmenter rewrites the separator `! ` to `.` and appends a terminal `.`, so
even the whitespace-stripped character sequences differ
(`"Hi.Yo."` vs `"Hi!Yo"`). -/
theorem captionTexts_change_terminators :
    nonWsF ((((getTimedCaptions
          { hook := "Hi! Yo".toList, body := "B.".toList, outro := "C.".toList } 12).filter
          (fun c => decide (c.sec = Sec.hook))).map TimedCaption.text).flatten)
      ≠ nonWsF "Hi! Yo".toList := by
  rw [getTimedCaptions_section_texts, taggedChunks_filter_hook]
  decide

/-- C4 (amended): when the first body caption's `startTime` and the last body
caption's `endTime` coincide, the code substitutes `1` for the zero
denominator (it does **not** force progress to `0`): the selected interior
index is `1 + min ⌊(t − bodyStart)·(sceneCount − 2)⌋ (sceneCount − 3)`, which
equals `1` at `t = bodyStart` (for `sceneCount ≥ 3`) but not for general `t`. -/
theorem bodyIndex_coincident (caps : List TimedCaption) (d t : ℚ) (n : ℤ)
    (h : bodyStartOf caps = bodyEndOf caps d) :
    bodyIndex caps d t n
        = 1 + min ⌊(t - bodyStartOf caps) * ((n - 2 : ℤ) : ℚ)⌋ (n - 2 - 1) ∧
    (t = bodyStartOf caps → 3 ≤ n → bodyIndex caps d t n = 1) := by
  have hden : bodyEndOf caps d - bodyStartOf caps = 0 := by rw [← h]; ring
  constructor
  · unfold bodyIndex
    rw [if_pos hden, div_one]
  · intro ht hn
    unfold bodyIndex
    rw [if_pos hden, div_one, ht, sub_self, zero_mul, Int.floor_zero,
      min_eq_left (by omega)]
    norm_num

/-- C4 (counterexample): on a timeline whose single body caption spans
`[2, 2]` (so `bodyStart = bodyEnd = 2`), the selection at `t = 5`,
`sceneCount = 5` returns `3`, not `1`: progress is computed as
`(t − bodyStart)/1 = 3`, not treated as `0`. -/
theorem bodyIndex_coincident_not_one :
    bodyStartOf capsDegenerate = bodyEndOf capsDegenerate 10 ∧
    selectImageIndex capsDegenerate 10 5 5 = 3 ∧
    selectImageIndex capsDegenerate 10 5 5 ≠ 1 := by
  have hsel : selectCaption capsDegenerate 5
      = some { text := "x".toList, startTime := 2, endTime := 2, sec := Sec.body } := by
    unfold selectCaption capsDegenerate
    rw [List.find?_cons_of_neg _ (by norm_num)]
    rfl
  have hbody : bodyIndex capsDegenerate 10 5 5 = 3 := by
    unfold bodyIndex
    have h1 : bodyStartOf capsDegenerate = 2 := by
      simp [bodyStartOf, capsDegenerate, List.find?]
    have h2 : bodyEndOf capsDegenerate 10 = 2 := by
      simp [bodyEndOf, capsDegenerate, List.find?]
    rw [h1, h2]
    norm_num
  refine ⟨?_, ?_, ?_⟩
  · simp [bodyStartOf, bodyEndOf, capsDegenerate, List.find?]
  · rw [selectImageIndex_eq_of_sel hsel, if_neg (by decide), if_neg (by decide), hbody]
  · rw [selectImageIndex_eq_of_sel hsel, if_neg (by decide), if_neg (by decide), hbody]
    norm_num

/-- C4 (witness): the amended statement instantiated at the degenerate caption
list, `t = bodyStart = 2`, `sceneCount = 5`, where the index is `1`. -/
theorem bodyIndex_coincident_witness : bodyIndex capsDegenerate 10 2 5 = 1 :=
  (bodyIndex_coincident capsDegenerate 10 2 5
      (by simp [capsDegenerate, bodyStartOf, bodyEndOf, List.find?])).2
    (by simp [capsDegenerate, bodyStartOf, List.find?]) (by norm_num)

/-- C7: if all three sections segment to no chunks (`totalChars = 0`, e.g.
every section empty or whitespace-only), `getTimedCaptions` returns the empty
caption sequence — no quotient by `totalChars` is ever materialized. -/
theorem getTimedCaptions_empty_of_zero_chars (script : Script) (d : ℚ)
    (h : totalCharsOf script = 0) : getTimedCaptions script d = [] := by
  unfold totalCharsOf at h
  rw [List.length_append, List.length_append] at h
  have hh : (splitText script.hook).flatten = [] :=
    List.length_eq_zero.mp (by omega)
  have hb : (splitText script.body).flatten = [] :=
    List.length_eq_zero.mp (by omega)
  have ho : (splitText script.outro).flatten = [] :=
    List.length_eq_zero.mp (by omega)
  have h1 := splitText_eq_nil_of_flatten hh
  have h2 := splitText_eq_nil_of_flatten hb
  have h3 := splitText_eq_nil_of_flatten ho
  unfold getTimedCaptions taggedChunks
  rw [h1, h2, h3]
  rfl

/-- C7 (witness): a whitespace-only script yields the empty caption list. -/
theorem getTimedCaptions_empty_witness :
    getTimedCaptions { hook := "".toList, body := " ".toList, outro := "".toList } 7 = [] :=
  getTimedCaptions_empty_of_zero_chars
    { hook := "".toList, body := " ".toList, outro := "".toList } 7 (by decide)

/-- C8: a comma-delimited clause of a sentence that exceeds `MAX_CHARS` is
emitted as one whole (trimmed) chunk, untruncated; and every chunk the
segmenter emits is the trim of a non-empty buffer (the accumulator never
flushes an empty buffer). -/
theorem long_clause_emitted_whole (s p : List Char)
    (hp : p ∈ (splitComma s).filter (fun q => !q.isEmpty)) (hl : MAX_CHARS < p.length) :
    trim p ∈ chunksOfSentence s ∧
    ∀ c ∈ chunksOfSentence s, ∃ buf, buf ≠ [] ∧ c = trim buf := by
  obtain ⟨hpm, -⟩ := List.mem_filter.mp hp
  have hslen : MAX_CHARS < s.length := lt_of_lt_of_le hl (splitComma_part_length hpm)
  have hchunks : chunksOfSentence s
      = accumulate ((splitComma s).filter (fun p => !p.isEmpty)) [] := by
    unfold chunksOfSentence
    rw [if_neg (by omega)]
  rw [hchunks]
  exact ⟨accumulate_long_mem _ [] p hp hl, accumulate_chunk_buf _ []⟩

/-- C8 (witness): a 26-character clause with no comma is emitted whole. -/
theorem long_clause_emitted_whole_witness :
    trim "abcdefghijklmnopqrstuvwxyz".toList
        ∈ chunksOfSentence "abcdefghijklmnopqrstuvwxyz".toList ∧
    ∀ c ∈ chunksOfSentence "abcdefghijklmnopqrstuvwxyz".toList,
      ∃ buf, buf ≠ [] ∧ c = trim buf :=
  long_clause_emitted_whole "abcdefghijklmnopqrstuvwxyz".toList
    "abcdefghijklmnopqrstuvwxyz".toList (by decide) (by decide)

/-- C9: every chunk produced by `splitText` is a non-empty string with no
leading or trailing whitespace (`trim c = c`), and consequently every caption
text produced by `getTimedCaptions` is non-empty, contributing at least one
character to `totalChars`. -/
theorem splitText_chunks_wellformed (t : List Char) (script : Script) (d : ℚ) :
    (∀ c ∈ splitText t, c ≠ [] ∧ trim c = c ∧ 1 ≤ c.length) ∧
    (∀ cap ∈ getTimedCaptions script d, cap.text ≠ [] ∧ 1 ≤ cap.text.length) := by
  constructor
  · intro c hc
    obtain ⟨h1, h2⟩ := splitText_wf c hc
    exact ⟨h1, h2, List.length_pos.mpr h1⟩
  · intro cap hcap
    have hmem : cap.text ∈ (taggedChunks script).map Prod.fst := buildCaps_mem_text hcap
    rw [taggedChunks_map_fst] at hmem
    have hne : cap.text ≠ [] := by
      rcases List.mem_append.mp hmem with hab | hc
      · rcases List.mem_append.mp hab with ha | hb
        · exact (splitText_wf _ ha).1
        · exact (splitText_wf _ hb).1
      · exact (splitText_wf _ hc).1
    exact ⟨hne, List.length_pos.mpr hne⟩

/-- C9 (witness): the well-formedness facts instantiated at the chunk `"Hi."`
of `splitText "Hi."`. -/
theorem splitText_chunks_wellformed_witness :
    "Hi.".toList ≠ [] ∧ trim "Hi.".toList = "Hi.".toList ∧ 1 ≤ "Hi.".toList.length :=
  (splitText_chunks_wellformed "Hi.".toList
      { hook := "Hi.".toList, body := "".toList, outro := "".toList } 1).1
    "Hi.".toList (by decide)

theorem exportVideo_run_audio (s : AppState) (h : s.isExporting = false) :
    exportVideo true true s =
      { isExporting := true, isPlaying := true, audioTime := 0, recording := true,
        onEndedInstalled := true, timeoutArmed := s.timeoutArmed } := by
  unfold exportVideo
  rw [if_neg (by simp [h])]
  rfl

theorem exportVideo_run_noAudioTrack (s : AppState) (h : s.isExporting = false) :
    exportVideo true false s =
      { isExporting := true, isPlaying := false, audioTime := s.audioTime, recording := true,
        onEndedInstalled := s.onEndedInstalled, timeoutArmed := true } := by
  unfold exportVideo
  rw [if_neg (by simp [h])]
  rfl

/-- C5 (amended): the recorder is started *immediately before* playback, not
once the scheduler is Playing: every recording-start transition of the export
trace happens with the playing flag cleared, and playback is then started.
With an audio source, capture completion is driven by the same end-of-media
handler that exits Playing (`audioEnds` stops the recorder, clears the playing
flag and the exporting flag together), and no timeout is armed; only without
an audio source is the fixed timeout armed (and playback is never entered). -/
theorem exportVideo_capture_protocol (s : AppState) (h : s.isExporting = false) :
    recStartsPaused (exportStates true { s with isExporting := true }) = true ∧
    (exportVideo true true s).recording = true ∧
    (exportVideo true true s).isPlaying = true ∧
    (exportVideo true true s).onEndedInstalled = true ∧
    (exportVideo true true s).timeoutArmed = s.timeoutArmed ∧
    (audioEnds (exportVideo true true s)).recording = false ∧
    (audioEnds (exportVideo true true s)).isPlaying = false ∧
    (audioEnds (exportVideo true true s)).isExporting = false ∧
    (exportVideo true false s).timeoutArmed = true ∧
    (exportVideo true false s).onEndedInstalled = s.onEndedInstalled ∧
    (exportVideo true false s).isPlaying = false := by
  rw [exportVideo_run_audio s h, exportVideo_run_noAudioTrack s h]
  refine ⟨?_, rfl, rfl, rfl, rfl, ?_, ?_, ?_, rfl, rfl, rfl⟩
  · simp [recStartsPaused, exportStates, exportTrace, exportStep, List.scanl]
  · rfl
  · rfl
  · rfl

/-- C5 (counterexample): with playback mid-stream when export is requested and
an audio source present, the recorder starts while the playing flag is down —
recording does *not* begin only once the scheduler is Playing. -/
theorem recording_starts_before_playing :
    recStartsPlaying (exportStates true { exportStart with isExporting := true }) = false := by
  decide

/-- C5 (witness): the amended protocol instantiated at the mid-playback
state `exportStart`. -/
theorem exportVideo_capture_protocol_witness :
    recStartsPaused (exportStates true { exportStart with isExporting := true }) = true ∧
    (exportVideo true true exportStart).recording = true ∧
    (exportVideo true true exportStart).isPlaying = true ∧
    (exportVideo true true exportStart).onEndedInstalled = true ∧
    (exportVideo true true exportStart).timeoutArmed = exportStart.timeoutArmed ∧
    (audioEnds (exportVideo true true exportStart)).recording = false ∧
    (audioEnds (exportVideo true true exportStart)).isPlaying = false ∧
    (audioEnds (exportVideo true true exportStart)).isExporting = false ∧
    (exportVideo true false exportStart).timeoutArmed = true ∧
    (exportVideo true false exportStart).onEndedInstalled = exportStart.onEndedInstalled ∧
    (exportVideo true false exportStart).isPlaying = false :=
  exportVideo_capture_protocol exportStart rfl

/-- C6: an export request arriving while a capture is active (`isExporting`)
returns without starting a recorder and leaves the state — and hence the
capture already in flight — completely unchanged, so at most one capture is in
flight at any time. -/
theorem exportVideo_rejects_concurrent (canvasPresent audioPresent : Bool) (s : AppState)
    (h : s.isExporting = true) : exportVideo canvasPresent audioPresent s = s := by
  unfold exportVideo
  rw [if_pos (by simp [h])]

/-- C6 (witness): a concrete active-capture state is returned unchanged. -/
theorem exportVideo_rejects_concurrent_witness :
    exportVideo true true { exportStart with isExporting := true, recording := true }
      = { exportStart with isExporting := true, recording := true } :=
  exportVideo_rejects_concurrent true true _ rfl

/-- C10: a successful export with an audio source rewinds the narration clock
to `0` before entering Playing — whatever the playback position was when the
request arrived, every transition into Playing happens with the clock at `0`,
and the final state is playing at time `0` — and the narration `ended` event
clears the playing flag. -/
theorem exportVideo_rewinds_then_plays (s : AppState) (h : s.isExporting = false) :
    (exportVideo true true s).audioTime = 0 ∧
    (exportVideo true true s).isPlaying = true ∧
    playStartsAtZero (exportStates true { s with isExporting := true }) = true ∧
    (audioEnds (exportVideo true true s)).isPlaying = false := by
  rw [exportVideo_run_audio s h]
  refine ⟨rfl, rfl, ?_, rfl⟩
  simp [playStartsAtZero, exportStates, exportTrace, exportStep, List.scanl]

/-- C10 (witness): the rewind-then-play facts at the mid-playback state
`exportStart` (clock at 7 s when the export is requested). -/
theorem exportVideo_rewinds_then_plays_witness :
    (exportVideo true true exportStart).audioTime = 0 ∧
    (exportVideo true true exportStart).isPlaying = true ∧
    playStartsAtZero (exportStates true { exportStart with isExporting := true }) = true ∧
    (audioEnds (exportVideo true true exportStart)).isPlaying = false :=
  exportVideo_rewinds_then_plays exportStart rfl

end Shortform
